import Mathlib

/-!
Verification of the indicative-allocation PDF parser (`parser.py`).

This file gives a shallow embedding of the text-processing core of the
repository: the amount normalizer `_norm_amount`, the amount-validity
classifier `_looks_like_valid_amount`, the description joiner
`_join_desc_parts`, the context extractor `_extract_context`, the block
segmenter `_extract_blocks`, and the row-reconstruction state machine
`_rows_from_block` / `parse_pdf_text`.

Modelling conventions:
* Python strings are Lean `String` / `List Char`.
* Python floats are modelled by `Option ℚ`: `none` stands for the NaN
  sentinel returned on parse failure.  All numeric values reachable from
  the parser's token grammar (at most two decimal digits) are decided
  identically by exact rationals and by IEEE doubles for the comparisons
  appearing in the code (`>= 1000`), so the rational model is faithful on
  the domain the code exercises.
* `pyFloat` models Python's `float()` on optionally signed decimal
  strings with surrounding whitespace, the only shapes the parser feeds
  it; exponent, underscore, and inf/nan spellings are outside the
  modelled domain.
* Python's `\s`, `str.strip` and `float()`-whitespace are all modelled by
  the single class `isPySpace` (space, tab, newline, carriage return,
  vertical tab, form feed, and the no-break space U+00A0).
* Text is split into lines at `'\n'` (the newline produced by the
  repository's text extraction).
-/

/-- The no-break space character U+00A0. -/
def nbspChar : Char := Char.ofNat 160

/-- The soft-hyphen character U+00AD. -/
def shyChar : Char := Char.ofNat 173

/-- Whitespace class used for Python's `\s`, `str.strip()` and the
whitespace tolerated by `float()`. -/
def isPySpace (c : Char) : Bool :=
  c == ' ' || c == '\t' || c == '\n' || c == '\r' ||
  c == Char.ofNat 11 || c == Char.ofNat 12 || c == nbspChar

/-- Python `str.strip()`: drop `isPySpace` characters from both ends. -/
def trimList (l : List Char) : List Char :=
  (l.dropWhile isPySpace).rdropWhile isPySpace

/-- Python `str.rstrip()`: drop `isPySpace` characters from the right end. -/
def rstripList (l : List Char) : List Char :=
  l.rdropWhile isPySpace

/-- Length of the leading whitespace run of a suffix (how much `\s*`
consumes). -/
def wsRun (s : List Char) : Nat := (s.takeWhile isPySpace).length

/-- Digits of a decimal string read as a natural number. -/
def digitsToNat (l : List Char) : Nat :=
  l.foldl (fun acc c => 10 * acc + (c.toNat - '0'.toNat)) 0

/-- The optional sign of a `float()` literal and the remaining text. -/
def signSplit (t : List Char) : Int × List Char :=
  match t with
  | '-' :: r => (-1, r)
  | '+' :: r => (1, r)
  | _ => (1, t)

/-- Model of Python `float()` on the strings the parser can produce:
surrounding whitespace is ignored, an optional sign is followed by
digits with at most one decimal point (at least one digit overall).
`none` models the `ValueError` raised on any other input. -/
def pyFloat (s : List Char) : Option ℚ :=
  let sp := signSplit (trimList s)
  let ip := sp.2.takeWhile Char.isDigit
  let r1 := sp.2.dropWhile Char.isDigit
  match r1 with
  | [] => if ip = [] then none else some (mkRat (sp.1 * digitsToNat ip) 1)
  | '.' :: r2 =>
    let fp := r2.takeWhile Char.isDigit
    let r3 := r2.dropWhile Char.isDigit
    if r3 = [] ∧ (ip ≠ [] ∨ fp ≠ []) then
      let den : Nat := 10 ^ fp.length
      some (mkRat (sp.1 * Int.ofNat (digitsToNat ip * den + digitsToNat fp)) den)
    else none
  | _ => none

/-- Map the decimal comma to a decimal point (`s.replace(",", ".")`). -/
def commaToDot (c : Char) : Char := if c = ',' then '.' else c

/-- Embedding of `_norm_amount`: strip, remove `'.'`, `' '` and U+00A0,
turn `','` into `'.'`, then parse as a float; NaN (here `none`) on
failure. -/
def normAmount (s : String) : Option ℚ :=
  let l0 := trimList s.toList
  let l1 := l0.filter (fun c => c != '.')
  let l2 := l1.filter (fun c => c != ' ')
  let l3 := l2.filter (fun c => c != nbspChar)
  pyFloat (l3.map commaToDot)

/-- The normalizer as the specification words it: strip the `'.'`
separators, spaces and no-break spaces, substitute `','` by `'.'`, parse
as a floating-point value, with a not-a-number sentinel on failure. -/
def specNormAmount (s : String) : Option ℚ :=
  pyFloat ((s.toList.filter
    (fun c => !(c == '.' || c == ' ' || c == nbspChar))).map commaToDot)

/-- Embedding of `_looks_like_valid_amount`: accept if the token contains
a `'.'` thousands separator, or if `float(s.replace(",", "."))` parses
to a value that is at least 1000. -/
def looksLikeValidAmount (s : String) : Bool :=
  if s.toList.contains '.' then true
  else
    match pyFloat (s.toList.map commaToDot) with
    | some q => decide ((1000 : ℚ) ≤ q)
    | none => false

/-- A numeric token in the sense of the amount grammar: only digits,
`'.'` and `','`, at most one comma, and at most two digits after it.
Every token the row reconstructor ever classifies has this shape. -/
def numericToken (s : String) : Bool :=
  s.toList.all (fun c => c.isDigit || c == '.' || c == ',') &&
  (s.toList.filter (fun c => c == ',')).length ≤ 1 &&
  ((s.toList.dropWhile (fun c => c != ',')).length ≤ 3)

/-- Embedding of `_normalise_soft_hyphen`: remove every soft hyphen. -/
def normaliseSoftHyphen (l : List Char) : List Char :=
  l.filter (fun c => c != shyChar)

/-- Fold of the joining loop of `_join_desc_parts`: if the accumulated
text ends with a literal hyphen, drop it and append the next fragment
directly, otherwise append with a single space. -/
def joinCore : List Char → List (List Char) → List Char
  | out, [] => out
  | out, nxt :: rest =>
    if out.getLast? = some '-' then joinCore (out.dropLast ++ nxt) rest
    else joinCore (out ++ ' ' :: nxt) rest

/-- State for the whitespace-run collapser: either the previous output
character was not whitespace, or exactly one whitespace character is
pending, or a run of two or more was already replaced by a space. -/
inductive WsSt : Type
  | clean : WsSt
  | pend : Char → WsSt
  | run : WsSt
deriving DecidableEq, Repr

/-- Scanner for `re.sub(r"\s{2,}", " ", s)`: a lone whitespace character
is kept as is, every maximal run of two or more whitespace characters
becomes a single space. -/
def collapseGo : WsSt → List Char → List Char
  | WsSt.clean, [] => []
  | WsSt.pend w, [] => [w]
  | WsSt.run, [] => []
  | WsSt.clean, c :: rest =>
    if isPySpace c then collapseGo (WsSt.pend c) rest
    else c :: collapseGo WsSt.clean rest
  | WsSt.pend w, c :: rest =>
    if isPySpace c then ' ' :: collapseGo WsSt.run rest
    else w :: c :: collapseGo WsSt.clean rest
  | WsSt.run, c :: rest =>
    if isPySpace c then collapseGo WsSt.run rest
    else c :: collapseGo WsSt.clean rest

/-- Replace every run of two or more whitespace characters by one space. -/
def collapseWs (l : List Char) : List Char := collapseGo WsSt.clean l

/-- Embedding of `_join_desc_parts`: keep the non-blank fragments,
strip and remove soft hyphens from each, join them resolving trailing
hyphens, collapse whitespace runs, and strip the result. -/
def joinDescParts (parts : List String) : String :=
  let cleaned := parts.filterMap fun p =>
    if trimList p.toList = [] then none
    else some (normaliseSoftHyphen (trimList p.toList))
  match cleaned with
  | [] => ""
  | c0 :: crest => String.mk (trimList (collapseWs (joinCore c0 crest)))

/-- Embedding of `RE_CODE_LINE` (`^\s*(?P<code>\d{2,3})\s+(?P<rest>.+)$`)
applied with `re.match`: leading whitespace, a run of exactly two or
three digits, at least one whitespace character, then a non-empty tail.
When the tail after the maximal whitespace run is empty, the regex
backtracks and `rest` is the last whitespace character of the run. -/
def reCodeLine (l : List Char) : Option (List Char × List Char) :=
  let t := l.dropWhile isPySpace
  let ds := t.takeWhile Char.isDigit
  if ds.length < 2 ∨ 3 < ds.length then none
  else
    let r0 := t.drop ds.length
    let w := wsRun r0
    if w = 0 then none
    else
      let tl := r0.drop w
      if tl ≠ [] then some (ds, tl)
      else if 2 ≤ w then some (ds, [(r0.getLast?).getD ' '])
      else none

/-- Number of `\.\d{3}` groups a greedy star consumes at the head of the
suffix (the thousands groups of the amount pattern). -/
def starCount : List Char → Nat
  | '.' :: a :: b :: c :: rest =>
    if a.isDigit ∧ b.isDigit ∧ c.isDigit then 1 + starCount rest else 0
  | _ => 0

/-- The `\s*(?:EUR)?\s*$` tail of the amount patterns: optional
whitespace, an optional literal EUR, optional whitespace, end of line. -/
def amtTailOk (s : List Char) : Bool :=
  let s1 := s.dropWhile isPySpace
  s1.isEmpty ||
    (("EUR".toList).isPrefixOf s1 && ((s1.drop 3).dropWhile isPySpace).isEmpty)

/-- Match `(?P<amt>\d{1,3}(?:\.\d{3})*(?:,\d{2})?)\s*(?:EUR)?\s*$` at the
head of the suffix, returning the `amt` group.  The digit count of the
leading run must be 1 to 3 (a longer run can never be followed by the
whitespace, comma or end the tail demands); the thousands-group star is
greedy with backtracking, and the optional decimal group is tried first,
exactly as the regex engine does. -/
def amtFullFrom (s : List Char) : Option (List Char) :=
  let d := s.takeWhile Char.isDigit
  if d.length = 0 ∨ 3 < d.length then none
  else
    let r1 := s.drop d.length
    let m0 := starCount r1
    ((List.range (m0 + 1)).map (fun i => m0 - i)).findSome? fun m =>
      let rm := r1.drop (4 * m)
      let withComma : Option (List Char) :=
        match rm with
        | ',' :: a :: b :: rr =>
          if a.isDigit ∧ b.isDigit ∧ amtTailOk rr then
            some (d ++ r1.take (4 * m) ++ [',', a, b])
          else none
        | _ => none
      match withComma with
      | some tk => some tk
      | none => if amtTailOk rm then some (d ++ r1.take (4 * m)) else none

/-- Embedding of `RE_AMOUNT_ONLY` applied with `re.match`: the whole
line is optional whitespace, an amount token, and the optional EUR tail. -/
def reAmountOnly (l : List Char) : Option (List Char) :=
  amtFullFrom (l.dropWhile isPySpace)

/-- Embedding of `RE_AMOUNT_TRAILING.search`: the leftmost start
position whose suffix is an amount token followed by the EUR tail and
the end of the string; returns the position and the `amt` group. -/
def amtSearch (cs : List Char) : Option (Nat × List Char) :=
  (List.range cs.length).findSome? fun p =>
    (amtFullFrom (cs.drop p)).map fun tok => (p, tok)

/-- Embedding of `PAGE_NUMBER_LIKE` (`^\s*\d{1,3}\s*$`): one to three
digits surrounded only by whitespace. -/
def pageNumberLike (l : List Char) : Bool :=
  let t := l.dropWhile isPySpace
  let d := t.takeWhile Char.isDigit
  decide (1 ≤ d.length) && decide (d.length ≤ 3) &&
    ((t.drop d.length).dropWhile isPySpace).isEmpty

/-- One literal of `_looks_like_new_table_marker` followed by `\s+` and
at least one digit. -/
def markerLitNum (t : List Char) (lit : List Char) : Bool :=
  lit.isPrefixOf t &&
    (let r := t.drop lit.length
     decide (1 ≤ wsRun r) && ((r.drop (wsRun r)).head?.any Char.isDigit))

/-- Literals separated by `\s+`, as a prefix of the suffix (no anchor at
the end). -/
def markerLits : List Char → List (List Char) → Bool
  | _, [] => true
  | t, lit :: rest =>
    lit.isPrefixOf t &&
      (match rest with
       | [] => true
       | _ =>
         let r := t.drop lit.length
         decide (1 ≤ wsRun r) && markerLits (r.drop (wsRun r)) rest)

/-- Embedding of `_looks_like_new_table_marker`: after optional leading
whitespace the line starts with one of the four header-like patterns. -/
def looksLikeNewTableMarker (l : List Char) : Bool :=
  let t := l.dropWhile isPySpace
  markerLitNum t "Tabelle".toList || markerLitNum t "Dimension".toList ||
    markerLits t ["Code".toList, "Beschreibung".toList, "Betrag".toList] ||
    markerLits t ["Code".toList, "Betrag".toList, "(EUR)".toList]

/-- Split a character list at a separator character (used for `'/'` and
for `'\n'`). -/
def splitChar (sep : Char) : List Char → List (List Char)
  | [] => [[]]
  | c :: rest =>
    let r := splitChar sep rest
    if c = sep then [] :: r
    else
      match r with
      | [] => [[c]]
      | h :: t => (c :: h) :: t

/-- Python `str.splitlines()` for `'\n'`-separated text: no empty final
line when the text ends with a newline, and no line for empty text. -/
def pySplitlines (l : List Char) : List (List Char) :=
  if l = [] then []
  else
    let parts := splitChar '\n' l
    if parts.getLast? = some [] then parts.dropLast else parts

/-- Embedding of `_split_parts_by_slash`: turn no-break spaces into
spaces, split at `'/'`, strip each part and keep the non-blank ones. -/
def splitSlash (l : List Char) : List (List Char) :=
  ((splitChar '/' (l.map fun c => if c = nbspChar then ' ' else c)).map
    trimList).filter (fun p => p ≠ [])

/-- ASCII lower-casing, the model of `re.IGNORECASE` used here (the
document template only varies case over ASCII letters). -/
def asciiLower (c : Char) : Char :=
  if 'A' ≤ c ∧ c ≤ 'Z' then Char.ofNat (c.toNat + 32) else c

/-- The `\s+(.+)` tail of the context patterns, on the single lines the
extractor works with: at least one whitespace character, then the
non-empty greedy remainder; when everything after the marker is
whitespace the regex backtracks and the group is the last whitespace
character (requiring a run of at least two). -/
def groupRest (rest : List Char) : Option (List Char) :=
  let w := wsRun rest
  if w = 0 then none
  else if w < rest.length then some (rest.drop w)
  else if 2 ≤ w then some [(rest.getLast?).getD ' ']
  else none

/-- Embedding of `re.search(r"Priorität\s+(.+)", part, re.IGNORECASE)`:
the leftmost position where the case-folded marker is followed by
whitespace and a non-empty rest; returns group 1. -/
def searchPrio (s : List Char) : Option (List Char) :=
  (List.range (s.length + 1)).findSome? fun p =>
    let t := s.drop p
    if ("priorität".toList).isPrefixOf (t.map asciiLower) then
      groupRest (t.drop ("priorität".toList).length)
    else none

/-- Embedding of `re.search(r"Spezifisches\s+Ziel\s+(.+)", part,
re.IGNORECASE)`. -/
def searchZiel (s : List Char) : Option (List Char) :=
  (List.range (s.length + 1)).findSome? fun p =>
    let t := s.drop p
    if ("spezifisches".toList).isPrefixOf (t.map asciiLower) then
      let t1 := t.drop ("spezifisches".toList).length
      let w := wsRun t1
      if w = 0 then none
      else
        let t2 := t1.drop w
        if ("ziel".toList).isPrefixOf (t2.map asciiLower) then
          groupRest (t2.drop 4)
        else none
    else none

/-- Does a needle occur as a contiguous substring? -/
def containsSub (hay needle : List Char) : Bool :=
  (List.range (hay.length + 1)).any fun i => needle.isPrefixOf (hay.drop i)

/-- The non-blank, stripped, no-break-space-normalised lines the context
extractor works on. -/
def ctxLines (blockText : String) : List (List Char) :=
  (pySplitlines blockText.toList).filterMap fun ln =>
    if trimList ln = [] then none
    else some ((trimList ln).map fun c => if c = nbspChar then ' ' else c)

/-- First line containing the priority marker, together with the line
after it (if any). -/
def findPrio : List (List Char) → Option (List Char × Option (List Char))
  | [] => none
  | ln :: rest =>
    if containsSub ln ("Priorität".toList) then some (ln, rest.head?)
    else findPrio rest

/-- Embedding of `re.match(r"^(Tabelle|Dimension|Code)\b", s)`: the line
starts with one of the three words followed by a non-word character or
the end.  Word characters are modelled as ASCII alphanumerics,
underscore, and any non-ASCII character. -/
def startsTDC (l : List Char) : Bool :=
  let wordChar : Char → Bool := fun c =>
    c.isAlphanum || c == '_' || decide (128 ≤ c.toNat)
  let one : List Char → Bool := fun lit =>
    lit.isPrefixOf l && !((l.drop lit.length).head?.any wordChar)
  one "Tabelle".toList || one "Dimension".toList || one "Code".toList

/-- The context record of `_extract_context` (`Priorität`, `Spezifisches
Ziel`, `Funding Programme`, `Scope`). -/
structure Ctx : Type where
  prioritaet : Option String
  ziel : Option String
  funding : Option String
  scope : String
deriving DecidableEq, Repr

/-- Embedding of `_extract_context`.  It is a total function: absence of
a priority line is the defaulted context, never an error. -/
def extractContext (blockText : String) : Ctx :=
  let lines := ctxLines blockText
  match findPrio lines with
  | none => ⟨none, none, none, ""⟩
  | some (cand0, nxt?) =>
    let parts0 := splitSlash cand0
    let parts :=
      if parts0.length < 3 then
        match nxt? with
        | some nxt =>
          if startsTDC nxt then parts0
          else splitSlash (cand0 ++ (" / ".toList) ++ nxt)
        | none => parts0
      else parts0
    let pz : Option String × Option String :=
      match parts with
      | p0 :: p1 :: _ =>
        ((searchPrio p0).map fun g => String.mk (trimList g),
         (searchZiel p1).map fun g => String.mk (trimList g))
      | _ => (none, none)
    let fs : Option String × String :=
      match parts with
      | _ :: _ :: p2 :: _ :: _ => (some (String.mk p2), String.mk (parts.getD 3 []))
      | [_, _, p2] => (some (String.mk p2), "")
      | _ => (none, "")
    ⟨pz.1, pz.2, fs.1, fs.2⟩

/-- A row record as assembled by `emit_row`.  `betrag = none` models the
NaN sentinel of a row that closed without a parsable amount. -/
structure Row : Type where
  sectionId : String
  prioritaet : Option String
  ziel : Option String
  funding : Option String
  scope : String
  dimension : String
  code : String
  beschreibung : String
  betrag : Option ℚ
deriving DecidableEq, Repr

/-- The three mutable variables of the row-reconstruction loop:
`curr_code`, `desc_parts` and `pending_amt`. -/
structure RowState : Type where
  currCode : Option String
  descParts : List String
  pendingAmt : Option String
deriving DecidableEq, Repr

/-- The fresh state at the start of a table. -/
def initRowState : RowState := ⟨none, [], none⟩

/-- The rows appended by one call of `emit_row`: nothing when no row is
open, otherwise the assembled record (`_norm_amount` of the pending
amount, or the NaN sentinel when none was seen). -/
def emitRows (sec : String) (ctx : Ctx) (dim : String) (st : RowState) : List Row :=
  match st.currCode with
  | none => []
  | some c =>
    [⟨sec, ctx.prioritaet, ctx.ziel, ctx.funding, ctx.scope, dim, c,
      joinDescParts st.descParts, st.pendingAmt.bind normAmount⟩]

/-- The state after one call of `emit_row`: reset when a row was open,
unchanged (early return) when not. -/
def emitReset (st : RowState) : RowState :=
  match st.currCode with
  | none => st
  | some _ => initRowState

/-- One iteration of the `while i < len(lines)` loop of
`_rows_from_block`: returns the next state and the rows emitted by this
line. -/
def stepLine (sec : String) (ctx : Ctx) (dim : String) (st : RowState)
    (ln : String) : RowState × List Row :=
  let l := ln.toList
  match reCodeLine l with
  | some cr =>
    let rest := trimList cr.2
    let st' : RowState :=
      match amtSearch rest with
      | some pt =>
        if looksLikeValidAmount (String.mk pt.2) then
          let before := trimList (rest.take pt.1)
          ⟨some (String.mk cr.1),
           if before = [] then [] else [String.mk before],
           some (String.mk pt.2)⟩
        else
          ⟨some (String.mk cr.1), if rest = [] then [] else [String.mk rest], none⟩
      | none =>
        ⟨some (String.mk cr.1), if rest = [] then [] else [String.mk rest], none⟩
    (st', emitRows sec ctx dim st)
  | none =>
    match reAmountOnly l, st.currCode with
    | some tok, some _ =>
      if looksLikeValidAmount (String.mk tok) then
        (⟨st.currCode, st.descParts, some (String.mk tok)⟩, [])
      else (emitReset st, emitRows sec ctx dim st)
    | _, _ =>
      if pageNumberLike l then (emitReset st, emitRows sec ctx dim st)
      else if looksLikeNewTableMarker l then (emitReset st, emitRows sec ctx dim st)
      else
        match st.currCode with
        | some _ => (⟨st.currCode, st.descParts ++ [String.mk (trimList l)], st.pendingAmt⟩, [])
        | none => (st, [])

/-- The whole line loop followed by the final `emit_row("table_end")`. -/
def rowsLoop (sec : String) (ctx : Ctx) (dim : String) :
    RowState → List String → List Row
  | st, [] => emitRows sec ctx dim st
  | st, ln :: rest =>
    let pr := stepLine sec ctx dim st ln
    pr.2 ++ rowsLoop sec ctx dim pr.1 rest

/-- Row reconstruction for one dimension table's line list, starting
from the fresh state. -/
def rowsFromLines (sec : String) (ctx : Ctx) (dim : String)
    (lines : List String) : List Row :=
  rowsLoop sec ctx dim initRowState lines

/-- Largest `k` such that `\s*$` matches consuming `k` whitespace
characters at the head of the suffix: the stop position must be the end
of the text or a newline (`$` under `re.MULTILINE`). -/
def wsDollar (s : List Char) : Option Nat :=
  ((List.range (wsRun s + 1)).reverse).findSome? fun k =>
    if s.drop k = [] ∨ (s.drop k).head? = some '\n' then some k else none

/-- Fuel-driven scanner for the `(\.\d+)*` chain; each group consumes at
least two characters, so fuel equal to the length of the suffix is
always sufficient. -/
def dotDigitsChainF : Nat → List Char → Nat
  | 0, _ => 0
  | fuel + 1, s =>
    match s with
    | '.' :: rest =>
      let d := rest.takeWhile Char.isDigit
      if d = [] then 0
      else (1 + d.length) + dotDigitsChainF fuel (rest.drop d.length)
    | _ => 0

/-- Chain of `(\.\d+)*` groups at the head of the suffix (greedy: each
group is a dot and a maximal non-empty digit run); returns the number of
characters consumed. -/
def dotDigitsChain (s : List Char) : Nat := dotDigitsChainF s.length s

/-- The `SECTION_ID` pattern
`(?:\d+(?:\.\d+)*|(?:\d+\.)?[A-Z](?:\.\d+)*)` at the head of the suffix,
with the following character required to be whitespace (the `\s+` that
separates the id from the title; the regex alternation can only succeed
in the configurations tried here).  Returns the consumed length. -/
def sectionIdAt (s : List Char) : Option Nat :=
  let isUpper : Char → Bool := fun c => decide ('A' ≤ c ∧ c ≤ 'Z')
  let wsNext : Nat → Option Nat := fun n =>
    if (s.drop n).head?.any isPySpace then some n else none
  let ds := s.takeWhile Char.isDigit
  let alt1 : Option Nat :=
    if ds = [] then none
    else wsNext (ds.length + dotDigitsChain (s.drop ds.length))
  match alt1 with
  | some n => some n
  | none =>
    let alt2core : List Char → Nat → Option Nat := fun t pre =>
      match t with
      | c :: rest =>
        if isUpper c then wsNext (pre + 1 + dotDigitsChain rest) else none
      | [] => none
    if ds ≠ [] ∧ (s.drop ds.length).head? = some '.' then
      alt2core (s.drop (ds.length + 1)) (ds.length + 1)
    else if ds = [] then alt2core s 0
    else none

/-- The fixed German section title of `RE_BLOCK_START`. -/
def sectionTitle : List Char :=
  "Indikative Aufschlüsselung der Programmmittel (EU) nach Art der Intervention".toList

/-- Match `RE_BLOCK_START` at the head of a suffix standing at a
`^` position: `\s*`, the section id, `\s+`, the literal title, `\s*$`.
Returns the consumed length and the section-id group. -/
def matchBlock (s : List Char) : Option (Nat × String) :=
  let w := wsRun s
  let s1 := s.drop w
  match sectionIdAt s1 with
  | none => none
  | some n =>
    let s2 := s1.drop n
    let w2 := wsRun s2
    if w2 = 0 then none
    else
      let s3 := s2.drop w2
      if sectionTitle.isPrefixOf s3 then
        match wsDollar (s3.drop sectionTitle.length) with
        | some k =>
          some (w + n + w2 + sectionTitle.length + k, String.mk (s1.take n))
        | none => none
      else none

/-- The lazy `\s+(.+?)\s*$` tail of `RE_DIMENSION` after the literal
`Dimension`: the whitespace run is consumed greedily (backtracking
towards shorter runs), the group is the shortest non-empty newline-free
segment after it that `\s*$` can follow.  Returns the group and the
consumed length. -/
def lazyGroup (s : List Char) : Option (List Char × Nat) :=
  let r := wsRun s
  ((List.range r).map (fun i => r - i)).findSome? fun b =>
    let g0 := s.drop b
    (List.range g0.length).findSome? fun gm1 =>
      let g := gm1 + 1
      let seg := g0.take g
      if '\n' ∈ seg then none
      else
        match wsDollar (g0.drop g) with
        | some k => some (seg, b + g + k)
        | none => none

/-- Match `RE_DIMENSION`
(`^\s*Tabelle\s+\d+\s*:\s*Dimension\s+(?P<dimension>.+?)\s*$`) at a `^`
position; returns the consumed length and the raw dimension group. -/
def matchDim (s : List Char) : Option (Nat × String) :=
  let w := wsRun s
  let s1 := s.drop w
  if ("Tabelle".toList).isPrefixOf s1 then
    let s2 := s1.drop 7
    let w2 := wsRun s2
    if w2 = 0 then none
    else
      let s3 := s2.drop w2
      let d := s3.takeWhile Char.isDigit
      if d = [] then none
      else
        let s4 := s3.drop d.length
        let w3 := wsRun s4
        let s5 := s4.drop w3
        if s5.head? = some ':' then
          let s6 := s5.drop 1
          let w4 := wsRun s6
          let s7 := s6.drop w4
          if ("Dimension".toList).isPrefixOf s7 then
            let s8 := s7.drop 9
            match lazyGroup s8 with
            | some gn =>
              some (w + 7 + w2 + d.length + w3 + 1 + w4 + 9 + gn.2,
                String.mk gn.1)
            | none => none
          else none
        else none
  else none

/-- Literals separated by `\s+` and closed by `\s*$`; the consumed
length is returned.  Used for the two table-header patterns. -/
def matchHeaderLits (lits : List (List Char)) (s : List Char) : Option Nat :=
  match lits with
  | [] => wsDollar s
  | lit :: rest =>
    let w := wsRun s
    let s1 := s.drop w
    if lit.isPrefixOf s1 then
      match rest with
      | [] =>
        match wsDollar (s1.drop lit.length) with
        | some k => some (w + lit.length + k)
        | none => none
      | _ =>
        let s2 := s1.drop lit.length
        let w2 := wsRun s2
        if w2 = 0 then none
        else
          match matchHeaderLits rest (s2.drop w2) with
          | some n => some (w + lit.length + w2 + n)
          | none => none
    else none

/-- Match `RE_TABLE_HEADER_DESC`
(`^\s*Code\s+Beschreibung\s+Betrag\s+\(EUR\)\s*$`) at a `^` position. -/
def matchHeaderDesc (s : List Char) : Option (Nat × Unit) :=
  (matchHeaderLits
    ["Code".toList, "Beschreibung".toList, "Betrag".toList, "(EUR)".toList] s).map
    fun n => (n, ())

/-- Match `RE_TABLE_HEADER_AMT` (`^\s*Code\s+Betrag\s+\(EUR\)\s*$`) at a
`^` position. -/
def matchHeaderAmt (s : List Char) : Option (Nat × Unit) :=
  (matchHeaderLits ["Code".toList, "Betrag".toList, "(EUR)".toList] s).map
    fun n => (n, ())

/-- The scanning loop shared by `finditer` and `search` for the
`re.MULTILINE` patterns above: at every position that starts the text or
follows a newline, try the matcher; on success record
(start, end, payload) and continue after the match, otherwise advance
one character.  The fuel is an upper bound on the number of steps and
never runs out for the initial value `length + 1`. -/
def scanGo {α : Type} (m : List Char → Option (Nat × α)) :
    Option Char → List Char → Nat → Nat → List (Nat × Nat × α)
  | _, _, _, 0 => []
  | prev, s, p, fuel + 1 =>
    match s with
    | [] => []
    | c :: rest =>
      if prev = none ∨ prev = some '\n' then
        match m s with
        | some na =>
          (p, p + na.1, na.2) ::
            scanGo m (((s.take na.1).getLast?).orElse fun _ => prev)
              (s.drop na.1) (p + na.1) fuel
        | none => scanGo m (some c) rest (p + 1) fuel
      else scanGo m (some c) rest (p + 1) fuel

/-- All matches of a `^`-anchored multiline pattern, as `finditer`
yields them. -/
def scanAll {α : Type} (m : List Char → Option (Nat × α)) (cs : List Char) :
    List (Nat × Nat × α) :=
  scanGo m none cs 0 (cs.length + 1)

/-- First match, as `re.search` returns it. -/
def searchFirst {α : Type} (m : List Char → Option (Nat × α)) (cs : List Char) :
    Option (Nat × Nat × α) :=
  (scanAll m cs).head?

/-- Strip `'\n'` characters from both ends (`block_text.strip("\n")`). -/
def stripNewlines (l : List Char) : List Char :=
  (l.dropWhile (fun c => c == '\n')).rdropWhile (fun c => c == '\n')

/-- A section block: the id group of its heading and its text. -/
structure Block : Type where
  sectionId : String
  text : String
deriving DecidableEq, Repr

/-- The end index of a block or span: the start of the next heading
match, or the end of the text when there is none. -/
def spanEnd (len : Nat) (rest : List (Nat × Nat × String)) : Nat :=
  match rest with
  | nxt :: _ => nxt.1
  | [] => len

/-- The loop body of `_extract_blocks` over the list of heading matches:
each block runs from its match start to the next match start (or the end
of the text), stripped of surrounding newlines. -/
def buildBlocks (cs : List Char) : List (Nat × Nat × String) → List Block
  | [] => []
  | msl :: rest =>
    ⟨msl.2.2, String.mk (stripNewlines
        ((cs.drop msl.1).take (spanEnd cs.length rest - msl.1)))⟩ ::
      buildBlocks cs rest

/-- Embedding of `_extract_blocks`. -/
def extractBlocks (fullText : String) : List Block :=
  buildBlocks fullText.toList (scanAll matchBlock fullText.toList)

/-- The index spans the blocks cover: from each heading-match start to
the next heading-match start, or to the end of the text for the last. -/
def spansAux (len : Nat) : List (Nat × Nat × String) → List (Nat × Nat)
  | [] => []
  | msl :: rest => (msl.1, spanEnd len rest) :: spansAux len rest

/-- The spans of the blocks of a document. -/
def blockSpans (fullText : String) : List (Nat × Nat) :=
  spansAux fullText.toList.length (scanAll matchBlock fullText.toList)

/-- The non-blank, right-stripped lines of a table region
(`[ln.rstrip() for ln in text.splitlines() if ln.strip() != ""]`). -/
def tableLines (t : List Char) : List String :=
  (pySplitlines t).filterMap fun ln =>
    if trimList ln = [] then none else some (String.mk (rstripList ln))

/-- Embedding of `_find_table_header`: the end offset of the first
description-style header, else of the first amount-only-style header. -/
def findTableHeader (localText : List Char) : Option Nat :=
  match searchFirst matchHeaderDesc localText with
  | some t => some t.2.1
  | none => (searchFirst matchHeaderAmt localText).map fun t => t.2.1

/-- The per-dimension loop of `_rows_from_block`: each dimension table
region runs from the end of its `Tabelle ... Dimension ...` marker to
the start of the next marker (or the end of the block); a region without
a recognised column header is skipped, otherwise its lines go through
the row-reconstruction state machine. -/
def dimsRows (sec : String) (ctx : Ctx) (cs : List Char) :
    List (Nat × Nat × String) → List Row
  | [] => []
  | dim :: rest =>
    let localEnd : Nat :=
      match rest with
      | nxt :: _ => nxt.1
      | [] => cs.length
    let localText := (cs.drop dim.2.1).take (localEnd - dim.2.1)
    (match findTableHeader localText with
     | none => []
     | some he =>
       rowsFromLines sec ctx (String.mk (trimList dim.2.2.toList))
         (tableLines (localText.drop he))) ++
      dimsRows sec ctx cs rest

/-- Embedding of `_rows_from_block`. -/
def rowsFromBlock (sec : String) (blockText : String) : List Row :=
  dimsRows sec (extractContext blockText) blockText.toList
    (scanAll matchDim blockText.toList)

/-- Embedding of `parse_pdf_text` up to the data-frame wrapper: the
concatenated row records of all blocks, in document order. -/
def parsePdfText (fullText : String) : List Row :=
  (extractBlocks fullText).flatMap fun b => rowsFromBlock b.sectionId b.text

/-! Helper lemmas about whitespace trimming. -/

theorem dropWhile_append_of_all {p : Char → Bool} (A X : List Char)
    (h : ∀ a ∈ A, p a = true) :
    (A ++ X).dropWhile p = X.dropWhile p := by
  induction A with
  | nil => rfl
  | cons a t ih =>
    have ha : p a = true := h a (by simp)
    simp only [List.cons_append, List.dropWhile_cons, ha, if_true]
    exact ih fun b hb => h b (by simp [hb])

theorem rdropWhile_append_of_all {p : Char → Bool} (X B : List Char)
    (h : ∀ b ∈ B, p b = true) :
    (X ++ B).rdropWhile p = X.rdropWhile p := by
  unfold List.rdropWhile
  rw [List.reverse_append]
  rw [dropWhile_append_of_all B.reverse X.reverse
    (fun b hb => h b (List.mem_reverse.mp hb))]

theorem dropWhile_append_of_ne_nil {p : Char → Bool} (X B : List Char)
    (h : X.dropWhile p ≠ []) :
    (X ++ B).dropWhile p = X.dropWhile p ++ B := by
  induction X with
  | nil => simp at h
  | cons a t ih =>
    cases ha : p a with
    | true =>
      simp only [List.cons_append, List.dropWhile_cons, ha, if_true]
      simp only [List.dropWhile_cons, ha, if_true] at h
      exact ih h
    | false =>
      simp only [List.cons_append, List.dropWhile_cons, ha]
      simp

theorem trimList_append_left (A X : List Char)
    (h : ∀ a ∈ A, isPySpace a = true) :
    trimList (A ++ X) = trimList X := by
  unfold trimList
  rw [dropWhile_append_of_all A X h]

theorem trimList_append_right (X B : List Char)
    (h : ∀ b ∈ B, isPySpace b = true) :
    trimList (X ++ B) = trimList X := by
  unfold trimList
  by_cases hx : X.dropWhile isPySpace = []
  · rw [dropWhile_append_of_all X B (List.dropWhile_eq_nil_iff.mp hx), hx]
    rw [List.rdropWhile_nil, List.rdropWhile_eq_nil_iff]
    intro x hx2
    exact h x ((B.dropWhile_sublist isPySpace).mem hx2)
  · rw [dropWhile_append_of_ne_nil X B hx]
    exact rdropWhile_append_of_all _ B h

theorem rdropWhile_append_rtakeWhile_eq (p : Char → Bool) (l : List Char) :
    l.rdropWhile p ++ l.rtakeWhile p = l := by
  unfold List.rdropWhile List.rtakeWhile
  rw [← List.reverse_append, List.takeWhile_append_dropWhile, List.reverse_reverse]

theorem pyFloat_congr (a b : List Char) (h : trimList a = trimList b) :
    pyFloat a = pyFloat b := by
  unfold pyFloat
  rw [h]

/-! The normalizer agrees with its specification. -/

/-- The one-pass character transformation of the specification's
normalizer. -/
def specKeep (c : Char) : Bool := !(c == '.' || c == ' ' || c == nbspChar)

theorem filters_eq_specKeep (X : List Char) :
    ((X.filter (fun c => c != '.')).filter (fun c => c != ' ')).filter
        (fun c => c != nbspChar) =
      X.filter specKeep := by
  simp only [List.filter_filter]
  congr 1
  funext c
  cases h1 : c == '.' <;> cases h2 : c == ' ' <;> cases h3 : c == nbspChar <;>
    simp only [specKeep, bne, h1, h2, h3, Bool.not_false, Bool.not_true,
      Bool.and_true, Bool.true_and, Bool.and_false, Bool.false_and,
      Bool.or_true, Bool.true_or, Bool.or_false, Bool.false_or]

theorem isPySpace_commaToDot (c : Char) (h : isPySpace c = true) :
    isPySpace (commaToDot c) = true := by
  by_cases hc : c = ','
  · subst hc; exact absurd h (by decide)
  · simpa [commaToDot, hc] using h

theorem specPipe_all_ws (A : List Char) (h : ∀ a ∈ A, isPySpace a = true) :
    ∀ a ∈ (A.filter specKeep).map commaToDot, isPySpace a = true := by
  intro a ha
  obtain ⟨b, hb, rfl⟩ := List.mem_map.mp ha
  exact isPySpace_commaToDot b (h b (List.mem_of_mem_filter hb))

theorem trim_specPipe_trim (L : List Char) :
    trimList (((trimList L).filter specKeep).map commaToDot) =
      trimList ((L.filter specKeep).map commaToDot) := by
  have hL : L = L.takeWhile isPySpace ++ L.dropWhile isPySpace :=
    (List.takeWhile_append_dropWhile isPySpace L).symm
  have hL1 : L.dropWhile isPySpace
      = (L.dropWhile isPySpace).rdropWhile isPySpace
        ++ (L.dropWhile isPySpace).rtakeWhile isPySpace :=
    (rdropWhile_append_rtakeWhile_eq isPySpace (L.dropWhile isPySpace)).symm
  have htrim : trimList L = (L.dropWhile isPySpace).rdropWhile isPySpace := rfl
  conv_rhs => rw [hL]
  rw [List.filter_append, List.map_append,
    trimList_append_left _ _
      (specPipe_all_ws _ fun a ha => List.mem_takeWhile_imp ha)]
  conv_rhs => rw [hL1]
  rw [List.filter_append, List.map_append,
    trimList_append_right _ _
      (specPipe_all_ws _ fun a ha => List.mem_rtakeWhile_imp ha)]
  rw [htrim]

/-- C5: the Amount Normalizer is total, follows exactly the
strip-separators / substitute-comma / parse pipeline the specification
describes (returning the NaN sentinel, modelled by `none`, instead of
raising), and maps "25.000.000,00" to exactly 25000000. -/
theorem normAmount_spec :
    (∀ s : String, normAmount s = specNormAmount s) ∧
    normAmount "25.000.000,00" = some (25000000 : ℚ) ∧
    normAmount "kein Betrag" = none := by
  refine ⟨fun s => ?_, by decide, by decide⟩
  show pyFloat _ = pyFloat _
  rw [filters_eq_specKeep]
  exact pyFloat_congr _ _ (trim_specPipe_trim s.toList)

/-! The amount-validity classifier. -/

theorem isPySpace_false_of_tokChar (c : Char)
    (h : (c.isDigit || c == '.' || c == ',') = true) : isPySpace c = false := by
  cases hw : isPySpace c with
  | false => rfl
  | true =>
    simp only [isPySpace, Bool.or_eq_true, beq_iff_eq] at hw
    rcases hw with (((((rfl | rfl) | rfl) | rfl) | rfl) | rfl) | rfl <;>
      exact absurd h (by decide)

theorem trimList_eq_self_of_no_ws (l : List Char)
    (h : ∀ c ∈ l, isPySpace c = false) : trimList l = l := by
  unfold trimList
  have h1 : l.dropWhile isPySpace = l := by
    rw [List.dropWhile_eq_self_iff]
    intro hl
    simpa using h (l.get ⟨0, hl⟩) (l.get_mem 0 hl)
  rw [h1, List.rdropWhile_eq_self_iff]
  intro hl
  simpa using h (l.getLast hl) (l.getLast_mem hl)

/-- C2: on numeric tokens the classifier accepts exactly when the token
contains a thousands separator or its normalized value is at least 1000;
"999" is rejected while "1.000" and "1000" are accepted. -/
theorem looksLikeValidAmount_spec :
    (∀ s : String, numericToken s = true →
      (looksLikeValidAmount s = true ↔
        (s.toList.contains '.' = true ∨
          ∃ q, normAmount s = some q ∧ (1000 : ℚ) ≤ q))) ∧
    looksLikeValidAmount "999" = false ∧
    looksLikeValidAmount "1.000" = true ∧
    looksLikeValidAmount "1000" = true := by
  refine ⟨fun s h => ?_, by decide, by decide, by decide⟩
  have hall : ∀ c ∈ s.toList, (c.isDigit || c == '.' || c == ',') = true := by
    have h1 := h
    unfold numericToken at h1
    simp only [Bool.and_eq_true] at h1
    exact List.all_eq_true.mp h1.1.1
  have hnws : ∀ c ∈ s.toList, isPySpace c = false :=
    fun c hc => isPySpace_false_of_tokChar c (hall c hc)
  by_cases hdot : s.toList.contains '.' = true
  · have hlhs : looksLikeValidAmount s = true := by
      unfold looksLikeValidAmount
      split
      · rfl
      · next hcond => exact absurd hdot hcond
    exact iff_of_true hlhs (Or.inl hdot)
  · have hnd : ∀ c ∈ s.toList, c ≠ '.' := by
      intro c hc hceq
      exact hdot (List.elem_eq_true_of_mem (hceq ▸ hc))
    have hf1 : List.filter (fun c => c != '.') s.toList = s.toList :=
      List.filter_eq_self.mpr fun c hc => by simpa using hnd c hc
    have hf2 : List.filter (fun c => c != ' ') s.toList = s.toList :=
      List.filter_eq_self.mpr fun c hc => by
        simp only [bne_iff_ne, ne_eq]
        intro he
        have hws := hnws c hc
        rw [he] at hws
        exact absurd hws (by decide)
    have hf3 : List.filter (fun c => c != nbspChar) s.toList = s.toList :=
      List.filter_eq_self.mpr fun c hc => by
        simp only [bne_iff_ne, ne_eq]
        intro he
        have hws := hnws c hc
        rw [he] at hws
        exact absurd hws (by decide)
    have hnorm : normAmount s = pyFloat (s.toList.map commaToDot) := by
      unfold normAmount
      dsimp only
      rw [trimList_eq_self_of_no_ws s.toList hnws, hf1, hf2, hf3]
    have hb : s.toList.contains '.' = false := by
      cases hx : s.toList.contains '.'
      · rfl
      · exact absurd hx hdot
    have hbne : ¬(s.toList.contains '.' = true) := by
      intro hx
      rw [hx] at hb
      exact absurd hb (by decide)
    unfold looksLikeValidAmount
    simp only [hb, Bool.false_eq_true, if_false, hnorm]
    obtain hq | ⟨q, hq⟩ :=
      Option.eq_none_or_eq_some (pyFloat (s.toList.map commaToDot))
    · rw [hq]
      constructor
      · intro hfalse
        simp at hfalse
      · rintro (hc | ⟨q2, hq2, hle⟩)
        · exact hc.elim
        · simp at hq2
    · rw [hq]
      constructor
      · intro hle
        have hle2 : decide ((1000 : ℚ) ≤ q) = true := hle
        exact Or.inr ⟨q, rfl, of_decide_eq_true hle2⟩
      · rintro (hc | ⟨q2, hq2, hle⟩)
        · exact hc.elim
        · cases Option.some.inj hq2
          show decide ((1000 : ℚ) ≤ q) = true
          exact decide_eq_true hle

/-! The description joiner. -/

/-- Adjacent characters are never both whitespace. -/
def NoWsPair (a b : Char) : Prop := ¬(isPySpace a = true ∧ isPySpace b = true)

theorem collapseGo_run_head (l : List Char) :
    ∀ c, (collapseGo WsSt.run l).head? = some c → isPySpace c = false := by
  induction l with
  | nil => intro c hc; simp [collapseGo] at hc
  | cons a t ih =>
    intro c hc
    by_cases ha : isPySpace a = true
    · rw [show collapseGo WsSt.run (a :: t) = collapseGo WsSt.run t by
        simp [collapseGo, ha]] at hc
      exact ih c hc
    · rw [show collapseGo WsSt.run (a :: t) = a :: collapseGo WsSt.clean t by
        simp [collapseGo, ha]] at hc
      cases hc
      cases hb : isPySpace a
      · rfl
      · exact absurd hb ha

theorem chain'_collapseGo (l : List Char) :
    ∀ st, List.Chain' NoWsPair (collapseGo st l) := by
  induction l with
  | nil =>
    intro st
    cases st <;> simp [collapseGo]
  | cons a t ih =>
    intro st
    cases st with
    | clean =>
      by_cases ha : isPySpace a = true
      · rw [show collapseGo WsSt.clean (a :: t) = collapseGo (WsSt.pend a) t by
          simp [collapseGo, ha]]
        exact ih (WsSt.pend a)
      · rw [show collapseGo WsSt.clean (a :: t) = a :: collapseGo WsSt.clean t by
          simp [collapseGo, ha]]
        rw [List.chain'_cons']
        refine ⟨fun y _ => ?_, ih WsSt.clean⟩
        intro hpair
        exact absurd hpair.1 (by simpa using ha)
    | pend w =>
      by_cases ha : isPySpace a = true
      · rw [show collapseGo (WsSt.pend w) (a :: t) = ' ' :: collapseGo WsSt.run t by
          simp [collapseGo, ha]]
        rw [List.chain'_cons']
        refine ⟨fun y hy => ?_, ih WsSt.run⟩
        intro hpair
        rw [collapseGo_run_head t y hy] at hpair
        exact absurd hpair.2 (by simp)
      · rw [show collapseGo (WsSt.pend w) (a :: t) = w :: a :: collapseGo WsSt.clean t by
          simp [collapseGo, ha]]
        rw [List.chain'_cons']
        refine ⟨fun y hy => ?_, ?_⟩
        · cases hy
          intro hpair
          exact absurd hpair.2 (by simpa using ha)
        · rw [List.chain'_cons']
          refine ⟨fun y hy => ?_, ih WsSt.clean⟩
          intro hpair
          exact absurd hpair.1 (by simpa using ha)
    | run =>
      by_cases ha : isPySpace a = true
      · rw [show collapseGo WsSt.run (a :: t) = collapseGo WsSt.run t by
          simp [collapseGo, ha]]
        exact ih WsSt.run
      · rw [show collapseGo WsSt.run (a :: t) = a :: collapseGo WsSt.clean t by
          simp [collapseGo, ha]]
        rw [List.chain'_cons']
        refine ⟨fun y _ => ?_, ih WsSt.clean⟩
        intro hpair
        exact absurd hpair.1 (by simpa using ha)

theorem trimList_infix_self (l : List Char) : trimList l <:+: l := by
  have h1 : trimList l <+: l.dropWhile isPySpace := List.rdropWhile_prefix _ _
  have h2 : l.dropWhile isPySpace <:+ l := List.dropWhile_suffix _
  obtain ⟨u, hu⟩ := h1
  obtain ⟨v, hv⟩ := h2
  exact ⟨v, u, by rw [List.append_assoc, hu, hv]⟩

theorem mem_collapseGo (l : List Char) :
    ∀ st c, c ∈ collapseGo st l → c ∈ l ∨ c = ' ' ∨ st = WsSt.pend c := by
  induction l with
  | nil =>
    intro st c hc
    cases st with
    | clean => simp [collapseGo] at hc
    | pend w => simp [collapseGo] at hc; subst hc; exact Or.inr (Or.inr rfl)
    | run => simp [collapseGo] at hc
  | cons a t ih =>
    intro st c hc
    cases st with
    | clean =>
      by_cases ha : isPySpace a = true
      · rw [show collapseGo WsSt.clean (a :: t) = collapseGo (WsSt.pend a) t by
          simp [collapseGo, ha]] at hc
        rcases ih _ c hc with h | h | h
        · exact Or.inl (List.mem_cons_of_mem a h)
        · exact Or.inr (Or.inl h)
        · cases h; exact Or.inl (List.mem_cons_self _ _)
      · rw [show collapseGo WsSt.clean (a :: t) = a :: collapseGo WsSt.clean t by
          simp [collapseGo, ha]] at hc
        rcases List.mem_cons.mp hc with rfl | hc2
        · exact Or.inl (List.mem_cons_self _ _)
        · rcases ih _ c hc2 with h | h | h
          · exact Or.inl (List.mem_cons_of_mem a h)
          · exact Or.inr (Or.inl h)
          · exact absurd h (by simp)
    | pend w =>
      by_cases ha : isPySpace a = true
      · rw [show collapseGo (WsSt.pend w) (a :: t) = ' ' :: collapseGo WsSt.run t by
          simp [collapseGo, ha]] at hc
        rcases List.mem_cons.mp hc with rfl | hc2
        · exact Or.inr (Or.inl rfl)
        · rcases ih _ c hc2 with h | h | h
          · exact Or.inl (List.mem_cons_of_mem a h)
          · exact Or.inr (Or.inl h)
          · exact absurd h (by simp)
      · rw [show collapseGo (WsSt.pend w) (a :: t) = w :: a :: collapseGo WsSt.clean t by
          simp [collapseGo, ha]] at hc
        rcases List.mem_cons.mp hc with rfl | hc2
        · exact Or.inr (Or.inr rfl)
        · rcases List.mem_cons.mp hc2 with rfl | hc3
          · exact Or.inl (List.mem_cons_self _ _)
          · rcases ih _ c hc3 with h | h | h
            · exact Or.inl (List.mem_cons_of_mem a h)
            · exact Or.inr (Or.inl h)
            · exact absurd h (by simp)
    | run =>
      by_cases ha : isPySpace a = true
      · rw [show collapseGo WsSt.run (a :: t) = collapseGo WsSt.run t by
          simp [collapseGo, ha]] at hc
        rcases ih _ c hc with h | h | h
        · exact Or.inl (List.mem_cons_of_mem a h)
        · exact Or.inr (Or.inl h)
        · exact absurd h (by simp)
      · rw [show collapseGo WsSt.run (a :: t) = a :: collapseGo WsSt.clean t by
          simp [collapseGo, ha]] at hc
        rcases List.mem_cons.mp hc with rfl | hc2
        · exact Or.inl (List.mem_cons_self _ _)
        · rcases ih _ c hc2 with h | h | h
          · exact Or.inl (List.mem_cons_of_mem a h)
          · exact Or.inr (Or.inl h)
          · exact absurd h (by simp)

theorem mem_joinCore (parts : List (List Char)) :
    ∀ out c, c ∈ joinCore out parts →
      c ∈ out ∨ (∃ p ∈ parts, c ∈ p) ∨ c = ' ' := by
  induction parts with
  | nil => intro out c hc; exact Or.inl hc
  | cons nxt rest ih =>
    intro out c hc
    unfold joinCore at hc
    by_cases hh : out.getLast? = some '-'
    · rw [if_pos hh] at hc
      rcases ih _ c hc with h | ⟨p, hp, hcp⟩ | h
      · rcases List.mem_append.mp h with h2 | h2
        · exact Or.inl (List.mem_of_mem_dropLast h2)
        · exact Or.inr (Or.inl ⟨nxt, List.mem_cons_self _ _, h2⟩)
      · exact Or.inr (Or.inl ⟨p, List.mem_cons_of_mem _ hp, hcp⟩)
      · exact Or.inr (Or.inr h)
    · rw [if_neg hh] at hc
      rcases ih _ c hc with h | ⟨p, hp, hcp⟩ | h
      · rcases List.mem_append.mp h with h2 | h2
        · exact Or.inl h2
        · rcases List.mem_cons.mp h2 with rfl | h3
          · exact Or.inr (Or.inr rfl)
          · exact Or.inr (Or.inl ⟨nxt, List.mem_cons_self _ _, h3⟩)
      · exact Or.inr (Or.inl ⟨p, List.mem_cons_of_mem _ hp, hcp⟩)
      · exact Or.inr (Or.inr h)

/-- C6: the Description Joiner stitches a trailing-hyphen fragment
directly to the next fragment, joins others with a single space, returns
the empty string on empty input, strips every soft hyphen, and leaves no
two adjacent whitespace characters in its output. -/
theorem joinDescParts_spec :
    joinDescParts ["Förder-", "programm"] = "Förderprogramm" ∧
    joinDescParts ["Teil A", "Teil B"] = "Teil A Teil B" ∧
    joinDescParts [] = "" ∧
    (∀ ps : List String, shyChar ∉ (joinDescParts ps).toList) ∧
    (∀ ps : List String, List.Chain' NoWsPair (joinDescParts ps).toList) := by
  refine ⟨by decide, by decide, by decide, fun ps => ?_, fun ps => ?_⟩
  · unfold joinDescParts
    dsimp only
    have hclean : ∀ q ∈ ps.filterMap (fun p =>
        if trimList p.toList = [] then none
        else some (normaliseSoftHyphen (trimList p.toList))), shyChar ∉ q := by
      intro q hq hmem
      obtain ⟨p, _, hq2⟩ := List.mem_filterMap.mp hq
      by_cases hz : trimList p.toList = []
      · rw [if_pos hz] at hq2; cases hq2
      · rw [if_neg hz] at hq2
        cases Option.some.inj hq2
        have := List.of_mem_filter hmem
        simp at this
    split
    · simp
    · next c0 crest heq =>
      intro hmem
      have hmem2 := (trimList_infix_self _).subset hmem
      rcases mem_collapseGo _ WsSt.clean shyChar hmem2 with h | h | h
      · rcases mem_joinCore crest c0 shyChar h with h2 | ⟨p, hp, hcp⟩ | h2
        · exact hclean c0 (heq ▸ List.mem_cons_self _ _) h2
        · exact hclean p (heq ▸ List.mem_cons_of_mem _ hp) hcp
        · exact absurd h2 (by decide)
      · exact absurd h (by decide)
      · simp at h
  · unfold joinDescParts
    dsimp only
    split
    · exact List.chain'_nil
    · exact List.Chain'.infix (chain'_collapseGo _ WsSt.clean) (trimList_infix_self _)

/-! The row-reconstruction boundary behaviour. -/

/-- C1 fails on the code: a code line followed immediately by another
code line produces one record for the first code, carrying the NaN
amount sentinel, not zero records. -/
theorem code_code_line_emits_first_row :
    ((rowsFromLines "2.1" ⟨some "1", some "1.1", some "EFRE", ""⟩ "Dim 1"
        ["01 Alpha", "02 Beta 1.000"]).map fun r => (r.code, r.betrag))
      = [("01", none), ("02", some (1000 : ℚ))] ∧
    ¬((rowsFromLines "2.1" ⟨some "1", some "1.1", some "EFRE", ""⟩ "Dim 1"
        ["01 Alpha", "02 Beta 1.000"]).filter (fun r => r.code == "01")) = [] := by
  constructor
  · decide
  · decide

/-- C1 (amended): when a code line arrives while a row is open with no
amount recorded, `emit_row` emits that row with the NaN sentinel (it is
not discarded), and the machine continues with the new code. -/
theorem code_boundary_emits_nan_row (sec : String) (ctx : Ctx) (dim : String)
    (st : RowState) (ln : String) (c0 : String) (cr : List Char × List Char)
    (h1 : st.currCode = some c0) (h2 : st.pendingAmt = none)
    (h3 : reCodeLine ln.toList = some cr) :
    (stepLine sec ctx dim st ln).2
        = [⟨sec, ctx.prioritaet, ctx.ziel, ctx.funding, ctx.scope, dim, c0,
            joinDescParts st.descParts, none⟩] ∧
    (stepLine sec ctx dim st ln).1.currCode = some (String.mk cr.1) := by
  have he : emitRows sec ctx dim st
      = [⟨sec, ctx.prioritaet, ctx.ziel, ctx.funding, ctx.scope, dim, c0,
          joinDescParts st.descParts, none⟩] := by
    unfold emitRows
    rw [h1]
    dsimp only
    rw [h2]
    rfl
  unfold stepLine
  dsimp only
  rw [h3]
  dsimp only
  refine ⟨he, ?_⟩
  split
  · split
    · rfl
    · rfl
  · rfl

/-- Witness for the amended C1 at a concrete open row and code line. -/
theorem code_boundary_emits_nan_row_witness :
    (stepLine "2.1" ⟨none, none, none, ""⟩ "D" ⟨some "07", ["Foo"], none⟩
        "08 Bar").2
      = [⟨"2.1", none, none, none, "", "D", "07", joinDescParts ["Foo"], none⟩] ∧
    (stepLine "2.1" ⟨none, none, none, ""⟩ "D" ⟨some "07", ["Foo"], none⟩
        "08 Bar").1.currCode = some (String.mk "08".toList) :=
  code_boundary_emits_nan_row "2.1" ⟨none, none, none, ""⟩ "D"
    ⟨some "07", ["Foo"], none⟩ "08 Bar" "07" ("08".toList, "Bar".toList)
    rfl rfl (by decide)

/-- C3 fails on the code: a code line with a valid trailing amount is not
committed immediately — a following plain line is still appended to the
description of that row. -/
theorem inline_amount_row_keeps_consuming :
    ((rowsFromLines "2.1" ⟨none, none, none, ""⟩ "D"
        ["10 Foo 25.000", "Bar"]).map fun r => (r.code, r.beschreibung, r.betrag))
      = [("10", "Foo Bar", some (25000 : ℚ))] ∧
    (stepLine "2.1" ⟨none, none, none, ""⟩ "D" initRowState "10 Foo 25.000").2
      = [] := by
  constructor
  · decide
  · decide

/-- C3 (amended): a code line whose tail carries a valid trailing amount
does not commit the row; the amount becomes the pending amount, the text
before it the first description fragment, and the only rows emitted are
the boundary emission of the previous row. -/
theorem inline_amount_sets_pending (sec : String) (ctx : Ctx) (dim : String)
    (st : RowState) (ln : String) (cr : List Char × List Char)
    (pt : Nat × List Char)
    (h1 : reCodeLine ln.toList = some cr)
    (h2 : amtSearch (trimList cr.2) = some pt)
    (h3 : looksLikeValidAmount (String.mk pt.2) = true) :
    stepLine sec ctx dim st ln
      = (⟨some (String.mk cr.1),
          if trimList ((trimList cr.2).take pt.1) = [] then []
          else [String.mk (trimList ((trimList cr.2).take pt.1))],
          some (String.mk pt.2)⟩,
         emitRows sec ctx dim st) := by
  unfold stepLine
  dsimp only
  rw [h1]
  dsimp only
  rw [h2]
  dsimp only
  rw [if_pos h3]

/-- Witness for the amended C3 at a concrete code line with an inline
amount. -/
theorem inline_amount_sets_pending_witness :
    stepLine "2.1" ⟨none, none, none, ""⟩ "D" initRowState "10 Foo 25.000"
      = (⟨some (String.mk "10".toList),
          if trimList ((trimList "Foo 25.000".toList).take 4) = [] then []
          else [String.mk (trimList ((trimList "Foo 25.000".toList).take 4))],
          some (String.mk "25.000".toList)⟩,
         emitRows "2.1" ⟨none, none, none, ""⟩ "D" initRowState) :=
  inline_amount_sets_pending "2.1" ⟨none, none, none, ""⟩ "D" initRowState
    "10 Foo 25.000" ("10".toList, "Foo 25.000".toList) (4, "25.000".toList)
    (by decide) (by decide) (by decide)

/-- C4 fails on the code: at the end of the lines a row with no observed
amount is flushed as a record carrying the NaN sentinel, not discarded. -/
theorem table_end_emits_amountless_row :
    ((rowsFromLines "2.1" ⟨none, none, none, ""⟩ "D" ["20 Gamma"]).map
        fun r => (r.code, r.beschreibung, r.betrag))
      = [("20", "Gamma", none)] ∧
    ¬(rowsFromLines "2.1" ⟨none, none, none, ""⟩ "D" ["20 Gamma"]) = [] := by
  constructor
  · decide
  · decide

/-- C4 (amended): at the end of the line sequence an open row is always
emitted — with the normalized pending amount when one was observed and
with the NaN sentinel when not — while a closed state emits nothing. -/
theorem table_end_flush (sec : String) (ctx : Ctx) (dim : String)
    (st : RowState) (c0 : String) (h : st.currCode = some c0) :
    rowsLoop sec ctx dim st []
        = [⟨sec, ctx.prioritaet, ctx.ziel, ctx.funding, ctx.scope, dim, c0,
            joinDescParts st.descParts, st.pendingAmt.bind normAmount⟩] ∧
    (∀ st2 : RowState, st2.currCode = none → rowsLoop sec ctx dim st2 [] = []) := by
  constructor
  · show emitRows sec ctx dim st = _
    unfold emitRows
    rw [h]
  · intro st2 h2
    show emitRows sec ctx dim st2 = _
    unfold emitRows
    rw [h2]

/-- Witness for the amended C4: an open row with a pending amount, an
open row without one, and a closed state. -/
theorem table_end_flush_witness :
    rowsLoop "2.1" ⟨none, none, none, ""⟩ "D" ⟨some "30", ["Text"], some "5.000"⟩ []
        = [⟨"2.1", none, none, none, "", "D", "30", joinDescParts ["Text"],
            (some "5.000").bind normAmount⟩] ∧
    rowsLoop "2.1" ⟨none, none, none, ""⟩ "D" ⟨some "31", ["Rest"], none⟩ []
        = [⟨"2.1", none, none, none, "", "D", "31", joinDescParts ["Rest"],
            (none : Option String).bind normAmount⟩] ∧
    rowsLoop "2.1" ⟨none, none, none, ""⟩ "D" initRowState [] = [] :=
  ⟨(table_end_flush "2.1" ⟨none, none, none, ""⟩ "D"
      ⟨some "30", ["Text"], some "5.000"⟩ "30" rfl).1,
   (table_end_flush "2.1" ⟨none, none, none, ""⟩ "D"
      ⟨some "31", ["Rest"], none⟩ "31" rfl).1,
   (table_end_flush "2.1" ⟨none, none, none, ""⟩ "D"
      ⟨some "31", ["Rest"], none⟩ "31" rfl).2 initRowState rfl⟩

/-! Digits-only lines. -/

theorem digit_toNat_bounds (c : Char) (h : c.isDigit = true) :
    48 ≤ c.toNat ∧ c.toNat ≤ 57 := by
  simp only [Char.isDigit, Bool.and_eq_true, decide_eq_true_eq] at h
  obtain ⟨h1, h2⟩ := h
  exact ⟨h1, h2⟩

theorem digits_fold_lt (l : List Char) :
    ∀ acc, (∀ c ∈ l, c.isDigit = true) →
      l.foldl (fun acc c => 10 * acc + (c.toNat - '0'.toNat)) acc
        < (acc + 1) * 10 ^ l.length := by
  induction l with
  | nil =>
    intro acc _
    simp only [List.foldl_nil, List.length_nil, pow_zero, Nat.mul_one]
    exact Nat.lt_succ_self acc
  | cons c t ih =>
    intro acc h
    have hc := digit_toNat_bounds c (h c (List.mem_cons_self _ _))
    have hv : c.toNat - '0'.toNat ≤ 9 := by
      have h48 : ('0' : Char).toNat = 48 := rfl
      omega
    have hstep := ih (10 * acc + (c.toNat - '0'.toNat))
      (fun d hd => h d (List.mem_cons_of_mem _ hd))
    calc (c :: t).foldl (fun acc c => 10 * acc + (c.toNat - '0'.toNat)) acc
        = t.foldl (fun acc c => 10 * acc + (c.toNat - '0'.toNat))
            (10 * acc + (c.toNat - '0'.toNat)) := rfl
      _ < (10 * acc + (c.toNat - '0'.toNat) + 1) * 10 ^ t.length := hstep
      _ ≤ ((acc + 1) * 10) * 10 ^ t.length := by
          have : 10 * acc + (c.toNat - '0'.toNat) + 1 ≤ (acc + 1) * 10 := by omega
          exact Nat.mul_le_mul_right _ this
      _ = (acc + 1) * 10 ^ (c :: t).length := by
          rw [List.length_cons, Nat.mul_assoc, ← Nat.pow_succ']

theorem digitsToNat_lt (l : List Char) (h : ∀ c ∈ l, c.isDigit = true) :
    digitsToNat l < 10 ^ l.length := by
  have := digits_fold_lt l 0 h
  simpa [digitsToNat] using this

theorem takeWhile_eq_self_of_all {p : Char → Bool} (l : List Char)
    (h : ∀ c ∈ l, p c = true) : l.takeWhile p = l := by
  induction l with
  | nil => rfl
  | cons c t ih =>
    rw [List.takeWhile_cons, if_pos (h c (List.mem_cons_self _ _))]
    rw [ih fun d hd => h d (List.mem_cons_of_mem _ hd)]

theorem map_commaToDot_digits (d : List Char) (hd : ∀ c ∈ d, c.isDigit = true) :
    d.map commaToDot = d := by
  induction d with
  | nil => rfl
  | cons c t ih =>
    have hc := hd c (List.mem_cons_self _ _)
    have h2 : commaToDot c = c := by
      unfold commaToDot
      rw [if_neg]
      rintro rfl
      simp at hc
    simp only [List.map_cons, h2]
    rw [ih fun x hx => hd x (List.mem_cons_of_mem _ hx)]

theorem signSplit_of_no_sign (t : List Char) (h1 : t.head? ≠ some '-')
    (h2 : t.head? ≠ some '+') : signSplit t = (1, t) := by
  unfold signSplit
  split
  · exact absurd rfl h1
  · exact absurd rfl h2
  · rfl

theorem pyFloat_digits (d : List Char) (hne : d ≠ [])
    (hd : ∀ c ∈ d, c.isDigit = true) :
    pyFloat d = some (mkRat (digitsToNat d) 1) := by
  unfold pyFloat
  rw [trimList_eq_self_of_no_ws d
    (fun c hc => isPySpace_false_of_tokChar c (by simp [hd c hc]))]
  have hsp : signSplit d = (1, d) := by
    apply signSplit_of_no_sign
    · intro hh
      cases d with
      | nil => simp at hh
      | cons c rest =>
        rw [List.head?_cons] at hh
        cases Option.some.inj hh
        simpa using hd '-' (List.mem_cons_self _ _)
    · intro hh
      cases d with
      | nil => simp at hh
      | cons c rest =>
        rw [List.head?_cons] at hh
        cases Option.some.inj hh
        simpa using hd '+' (List.mem_cons_self _ _)
  rw [hsp]
  dsimp only
  rw [takeWhile_eq_self_of_all d hd]
  rw [List.dropWhile_eq_nil_iff.mpr hd]
  dsimp only
  rw [if_neg]
  · simp
  · exact hne

theorem looksLikeValidAmount_digits_false (d : List Char)
    (hd : ∀ c ∈ d, c.isDigit = true) (hlen : d.length ≤ 3) (hne : d ≠ []) :
    looksLikeValidAmount (String.mk d) = false := by
  have hmk : (String.mk d).toList = d := rfl
  have hnd : d.contains '.' = false := by
    cases hx : d.contains '.'
    · rfl
    · exfalso
      have : '.' ∈ d := by simpa using hx
      simpa using hd '.' this
  unfold looksLikeValidAmount
  rw [hmk, hnd]
  rw [if_neg (by decide)]
  rw [map_commaToDot_digits d hd, pyFloat_digits d hne hd]
  dsimp only
  rw [decide_eq_false]
  rw [Rat.mkRat_one]
  intro hle
  have hlt : digitsToNat d < 1000 := by
    have h1 := digitsToNat_lt d hd
    have h2 : 10 ^ d.length ≤ 10 ^ 3 := Nat.pow_le_pow_right (by omega) hlen
    omega
  have : ((1000 : ℚ) : ℚ) ≤ ((digitsToNat d : Int) : ℚ) := hle
  rw [show ((1000 : ℚ)) = ((1000 : Int) : ℚ) by norm_num] at this
  have hint : (1000 : Int) ≤ (digitsToNat d : Int) := by exact_mod_cast this
  omega

/-- C10: a line that consists solely of a 2–3 digit number (optionally
surrounded by whitespace on the left, with the right already stripped as
the reconstructor strips its lines) never matches the code-line pattern,
so the current code is never set from it; the line acts as a row
boundary — via the below-threshold amount branch when a row is open and
via the page-number branch otherwise — leaving the state closed and
emitting exactly the boundary emission of the open row. -/
theorem digits_only_line_is_boundary (sec : String) (ctx : Ctx) (dim : String)
    (st : RowState) (ln : String) (a d : List Char)
    (hsplit : ln.toList = a ++ d)
    (ha : ∀ c ∈ a, isPySpace c = true)
    (hd : ∀ c ∈ d, c.isDigit = true)
    (hlen2 : 2 ≤ d.length) (hlen3 : d.length ≤ 3) :
    stepLine sec ctx dim st ln = (emitReset st, emitRows sec ctx dim st) := by
  have hne : d ≠ [] := by
    intro h
    rw [h] at hlen2
    simp at hlen2
  have hdrop : ln.toList.dropWhile isPySpace = d := by
    rw [hsplit, dropWhile_append_of_all a d ha]
    rw [List.dropWhile_eq_self_iff]
    intro hl
    have hdg : (d.get ⟨0, hl⟩).isDigit = true := hd (d.get ⟨0, hl⟩) (d.get_mem 0 hl)
    simp only [List.get_eq_getElem] at hdg
    simpa using isPySpace_false_of_tokChar _ (by simp [hdg])
  have htake : d.takeWhile Char.isDigit = d := takeWhile_eq_self_of_all d hd
  have hcode : reCodeLine ln.toList = none := by
    unfold reCodeLine
    dsimp only
    rw [hdrop, htake]
    rw [if_neg (by omega)]
    rw [List.drop_length]
    rfl
  have hamt : reAmountOnly ln.toList = some d := by
    unfold reAmountOnly amtFullFrom
    rw [hdrop]
    dsimp only
    rw [htake]
    rw [if_neg (by omega)]
    rw [List.drop_length]
    simp [starCount, amtTailOk]
  have hval : looksLikeValidAmount (String.mk d) = false :=
    looksLikeValidAmount_digits_false d hd hlen3 hne
  have hpage : pageNumberLike ln.toList = true := by
    unfold pageNumberLike
    rw [hdrop]
    dsimp only
    rw [htake, List.drop_length]
    have h1 : 1 ≤ d.length := by omega
    simp [h1, hlen3]
  unfold stepLine
  dsimp only
  rw [hcode]
  dsimp only
  rw [hamt]
  cases hst : st.currCode with
  | some c =>
    dsimp only
    rw [hval]
    rfl
  | none =>
    dsimp only
    rw [hpage]
    rfl

/-- Witness for C10: the line " 12" with an open row and with a closed
state. -/
theorem digits_only_line_is_boundary_witness :
    stepLine "2.1" ⟨none, none, none, ""⟩ "D" ⟨some "07", ["Foo"], none⟩ " 12"
        = (emitReset ⟨some "07", ["Foo"], none⟩,
           emitRows "2.1" ⟨none, none, none, ""⟩ "D" ⟨some "07", ["Foo"], none⟩) ∧
    stepLine "2.1" ⟨none, none, none, ""⟩ "D" initRowState " 12"
        = (emitReset initRowState,
           emitRows "2.1" ⟨none, none, none, ""⟩ "D" initRowState) :=
  ⟨digits_only_line_is_boundary "2.1" ⟨none, none, none, ""⟩ "D"
      ⟨some "07", ["Foo"], none⟩ " 12" [' '] ['1', '2'] (by decide) (by decide)
      (by decide) (by decide) (by decide),
   digits_only_line_is_boundary "2.1" ⟨none, none, none, ""⟩ "D"
      initRowState " 12" [' '] ['1', '2'] (by decide) (by decide)
      (by decide) (by decide) (by decide)⟩

/-! The context extractor and the empty pipeline. -/

/-- C7: the Context Extractor is a total function; when no line of the
block contains the priority marker every field is unset and the scope is
the empty string, and when the located line yields exactly three
slash-delimited segments the funding programme is the third segment and
the scope is the empty string (not null). -/
theorem extractContext_no_raise (b : String) :
    (findPrio (ctxLines b) = none →
      extractContext b = ⟨none, none, none, ""⟩) ∧
    (∀ ln nt p0 p1 p2,
      findPrio (ctxLines b) = some (ln, nt) →
      splitSlash ln = [p0, p1, p2] →
      (extractContext b).funding = some (String.mk p2) ∧
      (extractContext b).scope = "") := by
  constructor
  · intro h
    unfold extractContext
    dsimp only
    rw [h]
  · intro ln nt p0 p1 p2 h1 h2
    unfold extractContext
    dsimp only
    rw [h1]
    dsimp only
    rw [h2]
    rw [if_neg (by simp)]
    exact ⟨rfl, rfl⟩

/-- Witness for C7: a block without a priority line, and one whose
priority line has exactly three segments. -/
theorem extractContext_no_raise_witness :
    extractContext "kein Kontext hier" = ⟨none, none, none, ""⟩ ∧
    ((extractContext "Priorität 1 / Spezifisches Ziel 1.1 / EFRE").funding
        = some (String.mk "EFRE".toList) ∧
     (extractContext "Priorität 1 / Spezifisches Ziel 1.1 / EFRE").scope = "") :=
  ⟨(extractContext_no_raise "kein Kontext hier").1 (by decide),
   (extractContext_no_raise "Priorität 1 / Spezifisches Ziel 1.1 / EFRE").2
     "Priorität 1 / Spezifisches Ziel 1.1 / EFRE".toList none
     "Priorität 1".toList "Spezifisches Ziel 1.1".toList "EFRE".toList
     (by decide) (by decide)⟩

/-- C8: when no section heading matches — the empty document included —
the pipeline returns the empty record sequence; being a total function
it cannot raise. -/
theorem no_headings_no_rows (t : String)
    (h : scanAll matchBlock t.toList = []) : parsePdfText t = [] := by
  unfold parsePdfText extractBlocks
  rw [h]
  rfl

/-- Witness for C8: the empty document and a heading-less document. -/
theorem no_headings_no_rows_witness :
    parsePdfText "" = [] ∧ parsePdfText "Einleitung ohne Abschnitt" = [] :=
  ⟨no_headings_no_rows "" (by decide),
   no_headings_no_rows "Einleitung ohne Abschnitt" (by decide)⟩

/-! Block spans: order, disjointness and coverage. -/

theorem matchBlock_pos (s : List Char) (na : Nat × String)
    (h : matchBlock s = some na) : 1 ≤ na.1 := by
  have htitle : 1 ≤ sectionTitle.length := by decide
  unfold matchBlock at h
  dsimp only at h
  cases h1 : sectionIdAt (s.drop (wsRun s)) with
  | none => rw [h1] at h; simp at h
  | some n =>
    rw [h1] at h
    dsimp only at h
    by_cases h2 : wsRun ((s.drop (wsRun s)).drop n) = 0
    · rw [if_pos h2] at h; simp at h
    · rw [if_neg h2] at h
      by_cases h3 : sectionTitle.isPrefixOf
          (((s.drop (wsRun s)).drop n).drop
            (wsRun ((s.drop (wsRun s)).drop n))) = true
      · rw [if_pos h3] at h
        cases h4 : wsDollar ((((s.drop (wsRun s)).drop n).drop
            (wsRun ((s.drop (wsRun s)).drop n))).drop sectionTitle.length) with
        | none => rw [h4] at h; simp at h
        | some k =>
          rw [h4] at h
          dsimp only at h
          cases Option.some.inj h
          dsimp only
          omega
      · rw [if_neg h3] at h; simp at h

theorem scanGo_start_ge {α : Type} (m : List Char → Option (Nat × α)) :
    ∀ fuel (prev : Option Char) (s : List Char) (p : Nat),
      ∀ x ∈ scanGo m prev s p fuel, p ≤ x.1 := by
  intro fuel
  induction fuel with
  | zero => intro prev s p x hx; simp [scanGo] at hx
  | succ fuel ih =>
    intro prev s p x hx
    unfold scanGo at hx
    cases s with
    | nil => simp at hx
    | cons c rest =>
      dsimp only at hx
      by_cases hv : prev = none ∨ prev = some '\n'
      · rw [if_pos hv] at hx
        cases hmc : m (c :: rest) with
        | none =>
          rw [hmc] at hx
          have := ih (some c) rest (p + 1) x hx
          omega
        | some na =>
          rw [hmc] at hx
          rcases List.mem_cons.mp hx with rfl | hx2
          · exact le_refl _
          · have := ih _ _ _ x hx2
            omega
      · rw [if_neg hv] at hx
        have := ih (some c) rest (p + 1) x hx
        omega

theorem scanGo_pairwise {α : Type} (m : List Char → Option (Nat × α))
    (hm : ∀ s na, m s = some na → 1 ≤ na.1) :
    ∀ fuel (prev : Option Char) (s : List Char) (p : Nat),
      List.Pairwise (fun x y => x.1 < y.1) (scanGo m prev s p fuel) := by
  intro fuel
  induction fuel with
  | zero => intro prev s p; simp [scanGo]
  | succ fuel ih =>
    intro prev s p
    unfold scanGo
    cases s with
    | nil => simp
    | cons c rest =>
      dsimp only
      by_cases hv : prev = none ∨ prev = some '\n'
      · rw [if_pos hv]
        cases hmc : m (c :: rest) with
        | none => exact ih (some c) rest (p + 1)
        | some na =>
          rw [List.pairwise_cons]
          refine ⟨?_, ih _ _ _⟩
          intro y hy
          have h1 := scanGo_start_ge m fuel _ _ _ y hy
          have h2 := hm _ _ hmc
          dsimp only
          omega
      · rw [if_neg hv]
        exact ih (some c) rest (p + 1)

theorem spansAux_chain (len : Nat) (ms : List (Nat × Nat × String)) :
    List.Chain' (fun x y => x.2 = y.1) (spansAux len ms) := by
  induction ms with
  | nil => exact List.chain'_nil
  | cons m rest ih =>
    cases rest with
    | nil => simp [spansAux]
    | cons r0 rest2 =>
      rw [show spansAux len (m :: r0 :: rest2)
          = (m.1, r0.1) :: spansAux len (r0 :: rest2) from rfl]
      rw [List.chain'_cons']
      refine ⟨?_, ih⟩
      intro y hy
      rw [show spansAux len (r0 :: rest2)
          = (r0.1, spanEnd len rest2) :: spansAux len rest2 from rfl] at hy
      rw [List.head?_cons] at hy
      cases Option.some.inj hy
      rfl

theorem spansAux_ge (len lb : Nat) (ms : List (Nat × Nat × String))
    (h : ∀ m ∈ ms, lb ≤ m.1) : ∀ b ∈ spansAux len ms, lb ≤ b.1 := by
  induction ms with
  | nil => intro b hb; simp [spansAux] at hb
  | cons m rest ih =>
    intro b hb
    rw [show spansAux len (m :: rest)
        = (m.1, spanEnd len rest) :: spansAux len rest from rfl] at hb
    rcases List.mem_cons.mp hb with rfl | hb2
    · exact h m (List.mem_cons_self _ _)
    · exact ih (fun x hx => h x (List.mem_cons_of_mem _ hx)) b hb2

theorem spansAux_pairwise (len : Nat) (ms : List (Nat × Nat × String))
    (h : List.Pairwise (fun x y => x.1 < y.1) ms) :
    List.Pairwise (fun x y => x.1 < y.1 ∧ x.2 ≤ y.1) (spansAux len ms) := by
  induction ms with
  | nil => exact List.Pairwise.nil
  | cons m rest ih =>
    rw [List.pairwise_cons] at h
    obtain ⟨hm, hrest⟩ := h
    rw [show spansAux len (m :: rest)
        = (m.1, spanEnd len rest) :: spansAux len rest from rfl]
    rw [List.pairwise_cons]
    refine ⟨?_, ih hrest⟩
    intro b hb
    cases rest with
    | nil => simp [spansAux] at hb
    | cons r0 rest2 =>
      have hge : ∀ x ∈ spansAux len (r0 :: rest2), r0.1 ≤ x.1 := by
        apply spansAux_ge
        intro x hx
        rcases List.mem_cons.mp hx with rfl | hx2
        · exact le_refl _
        · exact le_of_lt ((List.pairwise_cons.mp hrest).1 x hx2)
      have h1 := hge b hb
      have h2 := hm r0 (List.mem_cons_self _ _)
      have h3 : spanEnd len (r0 :: rest2) = r0.1 := rfl
      exact ⟨by omega, by rw [h3]; omega⟩

theorem getLast?_cons_of_ne {α : Type} (a : α) (l : List α) (h : l ≠ []) :
    (a :: l).getLast? = l.getLast? := by
  cases l with
  | nil => exact absurd rfl h
  | cons b t => rw [List.getLast?_cons_cons]

theorem spansAux_last (len : Nat) (ms : List (Nat × Nat × String)) :
    ((spansAux len ms).getLast?.all fun x => x.2 == len) = true := by
  induction ms with
  | nil => rfl
  | cons m rest ih =>
    cases rest with
    | nil => simp [spansAux, spanEnd]
    | cons r0 rest2 =>
      rw [show spansAux len (m :: r0 :: rest2)
          = (m.1, r0.1) :: spansAux len (r0 :: rest2) from rfl]
      rw [getLast?_cons_of_ne _ _ (by
        rw [show spansAux len (r0 :: rest2)
            = (r0.1, spanEnd len rest2) :: spansAux len rest2 from rfl]
        simp)]
      exact ih

theorem buildBlocks_text (cs : List Char) (ms : List (Nat × Nat × String)) :
    (buildBlocks cs ms).map Block.text
      = (spansAux cs.length ms).map
          (fun x => String.mk (stripNewlines ((cs.drop x.1).take (x.2 - x.1)))) := by
  induction ms with
  | nil => rfl
  | cons m rest ih =>
    cases rest with
    | nil => rfl
    | cons r0 rest2 =>
      rw [show buildBlocks cs (m :: r0 :: rest2)
          = ⟨m.2.2, String.mk (stripNewlines ((cs.drop m.1).take (r0.1 - m.1)))⟩
              :: buildBlocks cs (r0 :: rest2) from rfl]
      rw [show spansAux cs.length (m :: r0 :: rest2)
          = (m.1, r0.1) :: spansAux cs.length (r0 :: rest2) from rfl]
      rw [List.map_cons, List.map_cons, ih]

theorem buildBlocks_sections (cs : List Char) (ms : List (Nat × Nat × String)) :
    (buildBlocks cs ms).map Block.sectionId = ms.map (fun m => m.2.2) := by
  induction ms with
  | nil => rfl
  | cons m rest ih =>
    rw [show buildBlocks cs (m :: rest)
        = ⟨m.2.2, String.mk (stripNewlines ((cs.drop m.1).take
            (spanEnd cs.length rest - m.1)))⟩ :: buildBlocks cs rest from rfl]
    rw [List.map_cons, List.map_cons, ih]

/-- C9: the block spans are in document order, consecutive spans abut
(each block runs from its own heading match to the start of the next),
they are pairwise non-overlapping, the last span ends at the end of the
document, and the emitted blocks are exactly the newline-stripped text
of these spans together with their heading section ids. -/
theorem blocks_ordered_nonoverlapping (t : String) :
    List.Chain' (fun x y => x.2 = y.1) (blockSpans t) ∧
    List.Pairwise (fun x y => x.1 < y.1 ∧ x.2 ≤ y.1) (blockSpans t) ∧
    ((blockSpans t).getLast?.all fun x => x.2 == t.toList.length) = true ∧
    (extractBlocks t).map Block.text
      = (blockSpans t).map
          (fun x => String.mk (stripNewlines ((t.toList.drop x.1).take (x.2 - x.1)))) ∧
    (extractBlocks t).map Block.sectionId
      = (scanAll matchBlock t.toList).map (fun m => m.2.2) := by
  refine ⟨spansAux_chain _ _, ?_, spansAux_last _ _, buildBlocks_text _ _,
    buildBlocks_sections _ _⟩
  exact spansAux_pairwise _ _
    (scanGo_pairwise matchBlock matchBlock_pos _ none t.toList 0)

/-- Witness for the classifier characterisation at the token "1000". -/
theorem looksLikeValidAmount_spec_witness :
    numericToken "1000" = true ∧
    (looksLikeValidAmount "1000" = true ↔
      ("1000".toList.contains '.' = true ∨
        ∃ q, normAmount "1000" = some q ∧ (1000 : ℚ) ≤ q)) :=
  ⟨by decide, looksLikeValidAmount_spec.1 "1000" (by decide)⟩

set_option maxRecDepth 8000

/-- End-to-end sanity check of the embedding, mirroring the testable
end-to-end scenario of the specification: one heading, a context line
with four slash-separated segments, one dimension marker with a valid
header, one single-line row with an inline amount and one wrapped row
with a standalone amount line yield exactly two fully populated
records. -/
theorem parsePdfText_end_to_end :
    parsePdfText ("Vorwort\n2.1 Indikative Aufschlüsselung der Programmmittel (EU) nach Art der Intervention\nPriorität 1 / Spezifisches Ziel 1.1 / EFRE / Stärkung\nTabelle 4: Dimension 1\nCode Beschreibung Betrag (EUR)\n010 Investition 2.000.000,00\n011 Förder-\nprogramm\n15.000.000,00\n")
      = [⟨"2.1", some "1", some "1.1", some "EFRE", "Stärkung", "1", "010",
          "Investition", some 2000000⟩,
         ⟨"2.1", some "1", some "1.1", some "EFRE", "Stärkung", "1", "011",
          "Förderprogramm", some 15000000⟩] := by
  decide
